import Mathlib

/-!
Shallow embedding of the lyric-alignment core (`src/utils/alignment.ts`):
the text normalizer, the line aligner `alignLyrics`, and the two
serializers `generateLRC` / `generateSRT`, together with proofs of the
specified properties.

Strings are modelled as lists of characters (`Str`), times in seconds as
rationals.  JavaScript's `Math.floor` becomes `Int.floor`, and the
JavaScript remainder operator `%` (which truncates the quotient towards
zero) is modelled by `jsRem`.
-/

namespace Suno

/-- Strings are modelled as lists of characters. -/
abbrev Str := List Char

/-- A timestamped word from the alignment service (`SunoWord` in `types.ts`). -/
structure SunoWord where
  word : Str
  start : ℚ
  «end» : ℚ
  deriving DecidableEq, Repr

instance : Inhabited SunoWord := ⟨⟨[], 0, 0⟩⟩

/-- One aligned lyric line (`AlignedLine` in `types.ts`). -/
structure AlignedLine where
  text : Str
  startTime : ℚ
  endTime : ℚ
  words : List SunoWord
  deriving DecidableEq, Repr

/-- Models the JavaScript `\s` character class: ASCII whitespace, the
line/paragraph separators, and the Unicode space separators (Zs) including
no-break space, Ogham space mark, the en/em-quad family, narrow no-break
space, medium mathematical space, ideographic space, and the BOM. -/
def isJsWs (c : Char) : Bool :=
  decide (c = ' ' ∨ c = '\t' ∨ c = '\n' ∨ c = '\r' ∨
    c.toNat = 0x0b ∨ c.toNat = 0x0c ∨ c.toNat = 0xa0 ∨ c.toNat = 0x1680 ∨
    (0x2000 ≤ c.toNat ∧ c.toNat ≤ 0x200a) ∨ c.toNat = 0x2028 ∨ c.toNat = 0x2029 ∨
    c.toNat = 0x202f ∨ c.toNat = 0x205f ∨ c.toNat = 0x3000 ∨ c.toNat = 0xfeff)

/-- Models the Unicode property class `[\p{L}\p{N}]` of the source regex on
these blocks: Basic Latin, Latin-1 Supplement (letters `ª µ º À–ÿ` without
`× ÷`, numbers `² ³ ¹ ¼ ½ ¾`), Latin Extended-A, Greek and Coptic (without
the symbols, punctuation and unassigned code points of the block), Cyrillic
(without `҂` and the combining marks), Armenian, Hebrew, Arabic letters and
both Arabic digit series, Devanagari consonants/vowels and digits, Bengali
digits, Thai letters and digits, Hiragana, Katakana, the CJK unified
ideographs, Hangul syllables, and the fullwidth letters and digits.
Characters of blocks not listed are treated as non-word characters; that is
a stated limit of the model, not a property of the source regex. -/
def isWordChar (c : Char) : Bool :=
  decide ('a' ≤ c ∧ c ≤ 'z') || decide ('A' ≤ c ∧ c ≤ 'Z') || decide ('0' ≤ c ∧ c ≤ '9') ||
    decide (c.toNat = 0xAA ∨ c.toNat = 0xB5 ∨ c.toNat = 0xBA) ||
    decide (c.toNat = 0xB2 ∨ c.toNat = 0xB3 ∨ c.toNat = 0xB9) ||
    decide (0xBC ≤ c.toNat ∧ c.toNat ≤ 0xBE) ||
    decide (0xC0 ≤ c.toNat ∧ c.toNat ≤ 0xFF ∧ c.toNat ≠ 0xD7 ∧ c.toNat ≠ 0xF7) ||
    decide (0x100 ≤ c.toNat ∧ c.toNat ≤ 0x17F) ||
    (decide (0x370 ≤ c.toNat ∧ c.toNat ≤ 0x3FF) &&
      !decide (c.toNat = 0x375 ∨ c.toNat = 0x378 ∨ c.toNat = 0x379 ∨ c.toNat = 0x37E) &&
      !decide (0x380 ≤ c.toNat ∧ c.toNat ≤ 0x385) &&
      !decide (c.toNat = 0x387 ∨ c.toNat = 0x38B ∨ c.toNat = 0x38D ∨ c.toNat = 0x3A2)) ||
    (decide (0x400 ≤ c.toNat ∧ c.toNat ≤ 0x4FF) &&
      !decide (0x482 ≤ c.toNat ∧ c.toNat ≤ 0x489)) ||
    decide (0x531 ≤ c.toNat ∧ c.toNat ≤ 0x556) ||
    decide (0x561 ≤ c.toNat ∧ c.toNat ≤ 0x587) ||
    decide (0x5D0 ≤ c.toNat ∧ c.toNat ≤ 0x5EA) ||
    decide (0x5EF ≤ c.toNat ∧ c.toNat ≤ 0x5F2) ||
    decide (0x620 ≤ c.toNat ∧ c.toNat ≤ 0x64A) ||
    decide (0x660 ≤ c.toNat ∧ c.toNat ≤ 0x669) ||
    decide (0x66E ≤ c.toNat ∧ c.toNat ≤ 0x66F) ||
    decide (0x671 ≤ c.toNat ∧ c.toNat ≤ 0x6D3) ||
    decide (0x6F0 ≤ c.toNat ∧ c.toNat ≤ 0x6F9) ||
    decide (0x904 ≤ c.toNat ∧ c.toNat ≤ 0x939) ||
    decide (c.toNat = 0x93D ∨ c.toNat = 0x950) ||
    decide (0x958 ≤ c.toNat ∧ c.toNat ≤ 0x961) ||
    decide (0x966 ≤ c.toNat ∧ c.toNat ≤ 0x96F) ||
    decide (0x9E6 ≤ c.toNat ∧ c.toNat ≤ 0x9EF) ||
    decide (0xE01 ≤ c.toNat ∧ c.toNat ≤ 0xE30) ||
    decide (c.toNat = 0xE32 ∨ c.toNat = 0xE33) ||
    decide (0xE40 ≤ c.toNat ∧ c.toNat ≤ 0xE46) ||
    decide (0xE50 ≤ c.toNat ∧ c.toNat ≤ 0xE59) ||
    decide (0x3041 ≤ c.toNat ∧ c.toNat ≤ 0x3096) ||
    decide (0x309D ≤ c.toNat ∧ c.toNat ≤ 0x309F) ||
    decide (0x30A1 ≤ c.toNat ∧ c.toNat ≤ 0x30FA) ||
    decide (0x30FC ≤ c.toNat ∧ c.toNat ≤ 0x30FF) ||
    decide (0x4E00 ≤ c.toNat ∧ c.toNat ≤ 0x9FEF) ||
    decide (0xAC00 ≤ c.toNat ∧ c.toNat ≤ 0xD7A3) ||
    decide (0xFF10 ≤ c.toNat ∧ c.toNat ≤ 0xFF19) ||
    decide (0xFF21 ≤ c.toNat ∧ c.toNat ≤ 0xFF3A) ||
    decide (0xFF41 ≤ c.toNat ∧ c.toNat ≤ 0xFF5A)

/-- Models JavaScript `String.prototype.toLowerCase` per character, with the
Unicode simple lowercase mapping on every cased block that `isWordChar`
includes: ASCII, Latin-1, Latin Extended-A (pairwise `+1` runs, `Ÿ → ÿ`,
and the simple mapping `İ → i`), Greek (including the accented capitals and
the `Ϙ…Ϯ` pairs), Cyrillic, Armenian, and the fullwidth capitals; identity
on caseless and unlisted characters.  The context-sensitive final-sigma
rule and the multi-character expansion of `İ` belong to full case
conversion and are outside this per-character model. -/
def lowerChar (c : Char) : Char :=
  if 'A' ≤ c ∧ c ≤ 'Z' then Char.ofNat (c.toNat + 32)
  else if c.toNat < 0xC0 then c
  else if c.toNat ≤ 0xDE ∧ c.toNat ≠ 0xD7 then Char.ofNat (c.toNat + 32)
  else if c.toNat < 0x100 then c
  else if c.toNat = 0x130 then 'i'
  else if c.toNat ≤ 0x136 ∧ c.toNat % 2 = 0 then Char.ofNat (c.toNat + 1)
  else if 0x139 ≤ c.toNat ∧ c.toNat ≤ 0x147 ∧ c.toNat % 2 = 1 then Char.ofNat (c.toNat + 1)
  else if 0x14A ≤ c.toNat ∧ c.toNat ≤ 0x176 ∧ c.toNat % 2 = 0 then Char.ofNat (c.toNat + 1)
  else if c.toNat = 0x178 then Char.ofNat 0xFF
  else if c.toNat = 0x179 ∨ c.toNat = 0x17B ∨ c.toNat = 0x17D then Char.ofNat (c.toNat + 1)
  else if c.toNat = 0x370 ∨ c.toNat = 0x372 ∨ c.toNat = 0x376 then Char.ofNat (c.toNat + 1)
  else if c.toNat = 0x37F then Char.ofNat 0x3F3
  else if c.toNat = 0x386 then Char.ofNat 0x3AC
  else if 0x388 ≤ c.toNat ∧ c.toNat ≤ 0x38A then Char.ofNat (c.toNat + 0x25)
  else if c.toNat = 0x38C then Char.ofNat 0x3CC
  else if c.toNat = 0x38E ∨ c.toNat = 0x38F then Char.ofNat (c.toNat + 0x3F)
  else if 0x391 ≤ c.toNat ∧ c.toNat ≤ 0x3AB ∧ c.toNat ≠ 0x3A2 then
    Char.ofNat (c.toNat + 0x20)
  else if c.toNat = 0x3CF then Char.ofNat 0x3D7
  else if 0x3D8 ≤ c.toNat ∧ c.toNat ≤ 0x3EE ∧ c.toNat % 2 = 0 then Char.ofNat (c.toNat + 1)
  else if c.toNat = 0x3F4 then Char.ofNat 0x3B8
  else if c.toNat = 0x3F7 then Char.ofNat 0x3F8
  else if c.toNat = 0x3F9 then Char.ofNat 0x3F2
  else if c.toNat = 0x3FA then Char.ofNat 0x3FB
  else if 0x3FD ≤ c.toNat ∧ c.toNat ≤ 0x3FF then Char.ofNat (c.toNat - 0x82)
  else if 0x400 ≤ c.toNat ∧ c.toNat ≤ 0x40F then Char.ofNat (c.toNat + 0x50)
  else if 0x410 ≤ c.toNat ∧ c.toNat ≤ 0x42F then Char.ofNat (c.toNat + 0x20)
  else if 0x460 ≤ c.toNat ∧ c.toNat ≤ 0x480 ∧ c.toNat % 2 = 0 then Char.ofNat (c.toNat + 1)
  else if 0x48A ≤ c.toNat ∧ c.toNat ≤ 0x4BE ∧ c.toNat % 2 = 0 then Char.ofNat (c.toNat + 1)
  else if c.toNat = 0x4C0 then Char.ofNat 0x4CF
  else if 0x4C1 ≤ c.toNat ∧ c.toNat ≤ 0x4CD ∧ c.toNat % 2 = 1 then Char.ofNat (c.toNat + 1)
  else if 0x4D0 ≤ c.toNat ∧ c.toNat ≤ 0x4FE ∧ c.toNat % 2 = 0 then Char.ofNat (c.toNat + 1)
  else if 0x531 ≤ c.toNat ∧ c.toNat ≤ 0x556 then Char.ofNat (c.toNat + 0x30)
  else if 0xFF21 ≤ c.toNat ∧ c.toNat ≤ 0xFF3A then Char.ofNat (c.toNat + 0x20)
  else c

/-- `text.toLowerCase().replace(/[^\p{L}\p{N}]/gu, '')` — lowercase, then
remove every character that is not a Unicode letter or digit. -/
def normalize (text : Str) : Str := (text.map lowerChar).filter isWordChar

/-- JavaScript `String.prototype.split(sep)` for a single-character
separator: split at every occurrence, keeping empty fragments
(`"".split` gives `[""]`). -/
def splitOnChar (sep : Char) (s : Str) : List Str :=
  s.foldr
    (fun c acc =>
      match acc with
      | [] => [[c]]
      | g :: gs => if c = sep then [] :: g :: gs else (c :: g) :: gs)
    [[]]

/-- Splitting on each whitespace character.  The source splits on runs
(`/\s+/`), which differs only by extra empty fragments; both are followed by
a filter that removes every token normalizing to the empty string, after
which the two agree. -/
def splitWsChar (s : Str) : List Str :=
  s.foldr
    (fun c acc =>
      if isJsWs c then [] :: acc
      else
        match acc with
        | [] => [[c]]
        | g :: gs => (c :: g) :: gs)
    []

/-- JavaScript `String.prototype.trim`: strip whitespace from both ends. -/
def trimWs (s : Str) : Str :=
  ((s.dropWhile isJsWs).reverse.dropWhile isJsWs).reverse

/-- Fuel-driven digit extraction (the fuel only makes the recursion
structural; `natDigits` supplies enough of it). -/
def natDigitsAux : Nat → Nat → Str
  | 0, n => [Nat.digitChar n]
  | fuel + 1, n =>
    if n < 10 then [Nat.digitChar n]
    else natDigitsAux fuel (n / 10) ++ [Nat.digitChar (n % 10)]

/-- Decimal digits of a natural number, as JavaScript `Number.toString()`
renders a non-negative integer. -/
def natDigits (n : Nat) : Str := natDigitsAux n n

/-- JavaScript `Number.toString()` on an integer. -/
def intToStr (n : ℤ) : Str :=
  if n < 0 then '-' :: natDigits n.natAbs else natDigits n.toNat

/-- JavaScript `String.prototype.padStart(k, '0')`. -/
def padZeros (k : Nat) (s : Str) : Str :=
  List.replicate (k - s.length) '0' ++ s

/-- Truncation of a rational towards zero, as JavaScript's remainder
operator truncates its implicit quotient. -/
def truncQ (x : ℚ) : ℤ := if 0 ≤ x then ⌊x⌋ else ⌈x⌉

/-- JavaScript `a % b` on numbers: the remainder whose implicit quotient is
truncated towards zero (sign follows the dividend). -/
def jsRem (a b : ℚ) : ℚ := a - b * (truncQ (a / b) : ℚ)

/-- `formatLrcTime` from the source: seconds to an LRC `[mm:ss.xx]` stamp. -/
def formatLrcTime (seconds : ℚ) : Str :=
  let mins : ℤ := ⌊seconds / 60⌋
  let secs : ℤ := ⌊jsRem seconds 60⌋
  let ms : ℤ := ⌊jsRem seconds 1 * 100⌋
  ['['] ++ padZeros 2 (intToStr mins) ++ [':'] ++ padZeros 2 (intToStr secs) ++
    ['.'] ++ padZeros 2 (intToStr ms) ++ [']']

/-- `formatSrtTime` from the source: seconds to an SRT `HH:MM:SS,mmm` stamp. -/
def formatSrtTime (seconds : ℚ) : Str :=
  let hrs : ℤ := ⌊seconds / 3600⌋
  let mins : ℤ := ⌊jsRem seconds 3600 / 60⌋
  let secs : ℤ := ⌊jsRem seconds 60⌋
  let ms : ℤ := ⌊jsRem seconds 1 * 1000⌋
  padZeros 2 (intToStr hrs) ++ [':'] ++ padZeros 2 (intToStr mins) ++ [':'] ++
    padZeros 2 (intToStr secs) ++ [','] ++ padZeros 3 (intToStr ms)

/-- `lineText.startsWith('[') && lineText.endsWith(']')`. -/
def isSection (l : Str) : Bool :=
  decide (l.head? = some '[') && decide (l.getLast? = some ']')

/-- Line preparation in `alignLyrics`:
`promptText.split('\n').map(l => l.trim()).filter(l => l.length > 0)`. -/
def prepLines (promptText : Str) : List Str :=
  ((splitOnChar '\n' promptText).map trimWs).filter (fun l => l.length > 0)

/-- Tokenization of one line:
`lineText.split(/\s+/).map(normalize).filter(t => t.length > 0)`. -/
def lineTokensOf (lineText : Str) : List Str :=
  ((splitWsChar lineText).map normalize).filter (fun t => t.length > 0)

/-- The primary search loop of `alignLyrics`: scan forward from `w`, and on
the first word whose normalization equals the line's first token run the
two-word confirmation — in the source every branch after a first-token
match sets `matchIndex = w` and breaks. -/
def primaryAux (toks : List Str) : List SunoWord → Nat → Option Nat
  | [], _ => none
  | x :: rest, w =>
    if normalize x.word = toks.getD 0 [] then
      -- `rest.length > 0` is `w + 1 < alignedWords.length` for the suffix at `w`,
      -- and `rest.getD 0 default` is `alignedWords[w+1]`
      if toks.length > 1 ∧ rest.length > 0 then
        if normalize (rest.getD 0 default).word = toks.getD 1 [] then
          some w -- high-confidence match
        else
          some w -- accept the first-word match anyway
      else some w
    else primaryAux toks rest (w + 1)

/-- The indexed `for (w = cursor; ...)` loop, as a structural scan over the
suffix of the word list that starts at the cursor. -/
def primaryFrom (words : List SunoWord) (toks : List Str) (w : Nat) : Option Nat :=
  primaryAux toks (words.drop w) w

def fallbackAux (t : Str) : List SunoWord → Nat → Option Nat
  | [], _ => none
  | x :: rest, w =>
    if normalize x.word = t then some w else fallbackAux t rest (w + 1)

/-- The fallback search loop of `alignLyrics`: scan forward from `w` for the
first word whose normalization equals `t`. -/
def fallbackFrom (words : List SunoWord) (t : Str) (w : Nat) : Option Nat :=
  fallbackAux t (words.drop w) w

/-- The whole per-line search of `alignLyrics`: the primary search, then —
only when it found nothing and the line has more than one token — the
fallback on the second token, from the same cursor. -/
def matchLine (words : List SunoWord) (toks : List Str) (cursor : Nat) : Option Nat :=
  match primaryFrom words toks cursor with
  | some j => some j
  | none =>
      if toks.length > 1 then fallbackFrom words (toks.getD 1 []) cursor
      else none

/-- The main loop of `alignLyrics` over the prepared lines, carrying the
word cursor and returning each emitted line's text together with its anchor
index into the word list. -/
def alignLoop (words : List SunoWord) : List Str → Nat → List (Str × Nat)
  | [], _ => []
  | line :: rest, cursor =>
    if isSection line then alignLoop words rest cursor
    else
      let toks := lineTokensOf line
      if toks.length = 0 then alignLoop words rest cursor
      else
        match matchLine words toks cursor with
        | some j => (line, j) :: alignLoop words rest (j + 1)
        | none => alignLoop words rest cursor

/-- The `lines.push({...})` record of `alignLyrics`: text, the anchor
word's start time, a placeholder end time, and an empty word list. -/
def mkLine (words : List SunoWord) (pr : Str × Nat) : AlignedLine :=
  { text := pr.1, startTime := (words.getD pr.2 default).start, endTime := 0, words := [] }

/-- The post-processing pass of `alignLyrics`: every line but the last ends
where the next line starts; the last line ends at the last word's end time
when that exists and lies strictly after the line's start, else at
`startTime + 5`. -/
def setEndTimes (words : List SunoWord) : List AlignedLine → List AlignedLine
  | [] => []
  | [l] =>
      [{ l with
          endTime :=
            match words.getLast? with
            | some lw => if l.startTime < lw.«end» then lw.«end» else l.startTime + 5
            | none => l.startTime + 5 }]
  | l :: l2 :: rest => { l with endTime := l2.startTime } :: setEndTimes words (l2 :: rest)

/-- `alignLyrics` from the source: prepare lines, run the cursor loop, emit
the aligned lines, then resolve end times. -/
def alignLyrics (promptText : Str) (alignedWords : List SunoWord) : List AlignedLine :=
  setEndTimes alignedWords
    ((alignLoop alignedWords (prepLines promptText) 0).map (mkLine alignedWords))

/-- `generateLRC` from the source. -/
def generateLRC (lines : List AlignedLine) : Str :=
  List.intercalate ['\n'] (lines.map fun line => formatLrcTime line.startTime ++ line.text)

/-- One SRT block of `generateSRT`: 1-based index, time range, text, each on
its own line, with a trailing newline. -/
def srtBlock (index : Nat) (line : AlignedLine) : Str :=
  natDigits (index + 1) ++ ['\n'] ++ formatSrtTime line.startTime ++ " --> ".data ++
    formatSrtTime line.endTime ++ ['\n'] ++ line.text ++ ['\n']

/-- `generateSRT` from the source. -/
def generateSRT (lines : List AlignedLine) : Str :=
  List.intercalate ['\n'] (lines.enum.map fun pr => srtBlock pr.1 pr.2)

/-- Rendering of an LRC timestamp following the specification's words: total
whole minutes, whole seconds within the minute, and truncated hundredths,
each zero-padded to two digits. -/
def lrcTimeSpec (s : ℚ) : Str :=
  ['['] ++ padZeros 2 (natDigits ⌊s / 60⌋₊) ++ [':'] ++ padZeros 2 (natDigits (⌊s⌋₊ % 60)) ++
    ['.'] ++ padZeros 2 (natDigits (⌊s * 100⌋₊ % 100)) ++ [']']

/-- Rendering of an SRT timestamp following the specification's words:
whole hours (by integer division, unwrapped), minutes within the hour,
seconds within the minute, and truncated milliseconds. -/
def srtTimeSpec (s : ℚ) : Str :=
  padZeros 2 (natDigits ⌊s / 3600⌋₊) ++ [':'] ++ padZeros 2 (natDigits (⌊s / 60⌋₊ % 60)) ++
    [':'] ++ padZeros 2 (natDigits (⌊s⌋₊ % 60)) ++ [','] ++
    padZeros 3 (natDigits (⌊s * 1000⌋₊ % 1000))

/-! ### Lemmas about the two forward scans -/

theorem fallbackFrom_step (words : List SunoWord) (t : Str) (c : Nat) :
    fallbackFrom words t c =
      match words[c]? with
      | none => none
      | some x => if normalize x.word = t then some c else fallbackFrom words t (c + 1) := by
  unfold fallbackFrom
  rcases Nat.lt_or_ge c words.length with h | h
  · rw [List.drop_eq_getElem_cons h, List.getElem?_eq_getElem h]
    rfl
  · rw [List.drop_eq_nil_of_le h, List.getElem?_eq_none h]
    rfl

theorem primaryAux_eq_fallbackAux (toks : List Str) :
    ∀ ws w, primaryAux toks ws w = fallbackAux (toks.getD 0 []) ws w := by
  intro ws
  induction ws with
  | nil => intro w; rfl
  | cons x rest ih =>
    intro w
    simp only [primaryAux, fallbackAux]
    split
    · split
      · split <;> rfl
      · rfl
    · exact ih (w + 1)

/-- The two-word confirmation never changes the primary search's result:
it is the plain first-token scan. -/
theorem primaryFrom_eq_fallbackFrom (words : List SunoWord) (toks : List Str) (c : Nat) :
    primaryFrom words toks c = fallbackFrom words (toks.getD 0 []) c :=
  primaryAux_eq_fallbackAux toks (words.drop c) c

theorem fallbackFrom_some_iff (words : List SunoWord) (t : Str) (c j : Nat) :
    fallbackFrom words t c = some j ↔
      (c ≤ j ∧ ∃ x, words[j]? = some x ∧ normalize x.word = t ∧
        ∀ k y, c ≤ k → k < j → words[k]? = some y → normalize y.word ≠ t) := by
  have main : ∀ n c, words.length - c = n → ∀ j,
      (fallbackFrom words t c = some j ↔
        (c ≤ j ∧ ∃ x, words[j]? = some x ∧ normalize x.word = t ∧
          ∀ k y, c ≤ k → k < j → words[k]? = some y → normalize y.word ≠ t)) := by
    intro n
    induction n with
    | zero =>
      intro c hc j
      rw [fallbackFrom_step, List.getElem?_eq_none (by omega)]
      constructor
      · intro h; cases h
      · rintro ⟨hcj, x, hx, -⟩
        obtain ⟨hj, -⟩ := List.getElem?_eq_some_iff.mp hx
        omega
    | succ n ih =>
      intro c hc j
      have hc' : c < words.length := by omega
      rw [fallbackFrom_step, List.getElem?_eq_getElem hc']
      simp only
      by_cases hmatch : normalize words[c].word = t
      · rw [if_pos hmatch]
        constructor
        · intro h
          have hj : j = c := by cases h; rfl
          subst hj
          exact ⟨le_refl _, words[j], List.getElem?_eq_getElem hc', hmatch,
            fun k y hk1 hk2 _ => by omega⟩
        · rintro ⟨hcj, x, hxj, hxt, hmin⟩
          have hjc : j = c := by
            by_contra hne
            have hcj' : c < j := by omega
            exact hmin c words[c] (le_refl _) hcj'
              (List.getElem?_eq_getElem hc') hmatch
          simp [hjc]
      · rw [if_neg hmatch]
        rw [ih (c + 1) (by omega) j]
        constructor
        · rintro ⟨hcj, x, hxj, hxt, hmin⟩
          refine ⟨by omega, x, hxj, hxt, fun k y hk1 hk2 hky => ?_⟩
          rcases Nat.eq_or_lt_of_le hk1 with hkc | hkc
          · subst hkc
            rw [List.getElem?_eq_getElem hc'] at hky
            cases hky
            exact hmatch
          · exact hmin k y (by omega) hk2 hky
        · rintro ⟨hcj, x, hxj, hxt, hmin⟩
          have hjc : j ≠ c := by
            intro hjc
            subst hjc
            rw [List.getElem?_eq_getElem hc'] at hxj
            cases hxj
            exact hmatch hxt
          exact ⟨by omega, x, hxj, hxt, fun k y hk1 hk2 hky => hmin k y (by omega) hk2 hky⟩
  exact main (words.length - c) c rfl j

theorem fallbackFrom_some_bounds {words : List SunoWord} {t : Str} {c j : Nat}
    (h : fallbackFrom words t c = some j) : c ≤ j ∧ j < words.length := by
  rcases (fallbackFrom_some_iff words t c j).mp h with ⟨hcj, x, hx, -⟩
  obtain ⟨hj, -⟩ := List.getElem?_eq_some_iff.mp hx
  exact ⟨hcj, hj⟩

theorem matchLine_some_bounds {words : List SunoWord} {toks : List Str} {c j : Nat}
    (h : matchLine words toks c = some j) : c ≤ j ∧ j < words.length := by
  unfold matchLine at h
  cases hp : primaryFrom words toks c with
  | some j2 =>
    rw [hp] at h
    cases h
    rw [primaryFrom_eq_fallbackFrom] at hp
    exact fallbackFrom_some_bounds hp
  | none =>
    rw [hp] at h
    by_cases hl : toks.length > 1
    · rw [if_pos hl] at h
      exact fallbackFrom_some_bounds h
    · rw [if_neg hl] at h
      cases h

/-! ### Invariants of the cursor loop -/

theorem alignLoop_mem_bounds (words : List SunoWord) :
    ∀ (ls : List Str) (c : Nat) (pr : Str × Nat),
      pr ∈ alignLoop words ls c → c ≤ pr.2 ∧ pr.2 < words.length := by
  intro ls
  induction ls with
  | nil => intro c pr h; cases h
  | cons line rest ih =>
    intro c pr h
    rw [alignLoop] at h
    by_cases hs : isSection line
    · rw [if_pos hs] at h
      exact ih c pr h
    · rw [if_neg hs] at h
      by_cases ht : (lineTokensOf line).length = 0
      · rw [if_pos ht] at h
        exact ih c pr h
      · rw [if_neg ht] at h
        cases hm : matchLine words (lineTokensOf line) c with
        | some j =>
          rw [hm] at h
          have hb := matchLine_some_bounds hm
          rcases List.mem_cons.mp h with rfl | htail
          · exact hb
          · have := ih (j + 1) pr htail
            omega
        | none =>
          rw [hm] at h
          exact ih c pr h

theorem alignLoop_pairwise (words : List SunoWord) :
    ∀ (ls : List Str) (c : Nat),
      List.Pairwise (· < ·) ((alignLoop words ls c).map Prod.snd) := by
  intro ls
  induction ls with
  | nil => intro c; simp [alignLoop]
  | cons line rest ih =>
    intro c
    rw [alignLoop]
    by_cases hs : isSection line
    · rw [if_pos hs]; exact ih c
    · rw [if_neg hs]
      by_cases ht : (lineTokensOf line).length = 0
      · rw [if_pos ht]; exact ih c
      · rw [if_neg ht]
        cases hm : matchLine words (lineTokensOf line) c with
        | some j =>
          simp only [List.map_cons, List.pairwise_cons]
          refine ⟨?_, ih (j + 1)⟩
          intro m hm2
          rcases List.mem_map.mp hm2 with ⟨pr, hpr, rfl⟩
          have := alignLoop_mem_bounds words rest (j + 1) pr hpr
          omega
        | none => exact ih c

/-- A strictly increasing list of indices below `n`, all of them at least
`c`, has length at most `n - c`. -/
theorem pairwise_lt_bounded_length :
    ∀ (l : List Nat) (n c : Nat), List.Pairwise (· < ·) l →
      (∀ x ∈ l, x < n) → (∀ x ∈ l, c ≤ x) → l.length ≤ n - c := by
  intro l
  induction l with
  | nil => intro n c _ _ _; simp
  | cons x t ih =>
    intro n c hp hub hlb
    have hx : x < n := hub x (List.mem_cons_self x t)
    have hcx : c ≤ x := hlb x (List.mem_cons_self x t)
    have hstep := List.pairwise_cons.mp hp
    have ht := ih n (x + 1) hstep.2 (fun y hy => hub y (List.mem_cons_of_mem x hy))
      (fun y hy => hstep.1 y hy)
    simp only [List.length_cons]
    omega

/-! ### Lemmas about the end-time post-processing -/

theorem setEndTimes_map_startTime (ws : List SunoWord) :
    ∀ l : List AlignedLine,
      (setEndTimes ws l).map AlignedLine.startTime = l.map AlignedLine.startTime := by
  intro l
  induction l with
  | nil => rfl
  | cons a t ih =>
    cases t with
    | nil => cases hlast : ws.getLast? <;> simp [setEndTimes, hlast]
    | cons b t2 => simpa [setEndTimes] using ih

theorem setEndTimes_length (ws : List SunoWord) :
    ∀ l : List AlignedLine, (setEndTimes ws l).length = l.length := by
  intro l
  have := congrArg List.length (setEndTimes_map_startTime ws l)
  simpa using this

theorem setEndTimes_head (ws : List SunoWord) (b : AlignedLine) (t : List AlignedLine) :
    ∃ e rest, setEndTimes ws (b :: t) = { b with endTime := e } :: rest := by
  cases t with
  | nil => exact ⟨_, [], rfl⟩
  | cons c t2 => exact ⟨_, _, rfl⟩

theorem setEndTimes_adjacent (ws : List SunoWord) :
    ∀ (l : List AlignedLine) (i : Nat) (x y : AlignedLine),
      (setEndTimes ws l)[i]? = some x → (setEndTimes ws l)[i + 1]? = some y →
      x.endTime = y.startTime := by
  intro l
  induction l with
  | nil => intro i x y hx _; simp [setEndTimes] at hx
  | cons a t ih =>
    cases t with
    | nil =>
      intro i x y hx hy
      have hlen : (setEndTimes ws [a]).length = 1 := setEndTimes_length ws [a]
      obtain ⟨hy2, -⟩ := List.getElem?_eq_some_iff.mp hy
      omega
    | cons b t2 =>
      intro i x y hx hy
      obtain ⟨e, rest, hbt⟩ := setEndTimes_head ws b t2
      cases i with
      | zero =>
        have hx0 : x = { a with endTime := b.startTime } := by
          rw [show setEndTimes ws (a :: b :: t2) =
              { a with endTime := b.startTime } :: setEndTimes ws (b :: t2) from rfl] at hx
          simpa using hx.symm
        have hy0 : y = { b with endTime := e } := by
          rw [show setEndTimes ws (a :: b :: t2) =
              { a with endTime := b.startTime } :: setEndTimes ws (b :: t2) from rfl,
            hbt] at hy
          simpa using hy.symm
        rw [hx0, hy0]
      | succ i2 =>
        rw [show setEndTimes ws (a :: b :: t2) =
            { a with endTime := b.startTime } :: setEndTimes ws (b :: t2) from rfl] at hx hy
        rw [List.getElem?_cons_succ] at hx hy
        exact ih i2 x y hx hy

theorem setEndTimes_getLast (ws : List SunoWord) :
    ∀ (l : List AlignedLine) (z : AlignedLine),
      (setEndTimes ws l).getLast? = some z →
      z.endTime =
        match ws.getLast? with
        | some lw => if z.startTime < lw.«end» then lw.«end» else z.startTime + 5
        | none => z.startTime + 5 := by
  intro l
  induction l with
  | nil => intro z hz; cases hz
  | cons a t ih =>
    cases t with
    | nil =>
      intro z hz
      simp only [setEndTimes, List.getLast?_singleton, Option.some_inj] at hz
      subst hz
      cases hlast : ws.getLast? <;> simp [hlast]
    | cons b t2 =>
      intro z hz
      obtain ⟨e, rest, hbt⟩ := setEndTimes_head ws b t2
      rw [show setEndTimes ws (a :: b :: t2) =
          { a with endTime := b.startTime } :: setEndTimes ws (b :: t2) from rfl, hbt,
        List.getLast?_cons_cons, ← hbt] at hz
      exact ih z hz

theorem setEndTimes_start_le_end (ws : List SunoWord) :
    ∀ l : List AlignedLine, List.Chain' (· ≤ ·) (l.map AlignedLine.startTime) →
      ∀ x ∈ setEndTimes ws l, x.startTime ≤ x.endTime := by
  intro l
  induction l with
  | nil => intro _ x hx; cases hx
  | cons a t ih =>
    cases t with
    | nil =>
      intro _ x hx
      simp only [setEndTimes, List.mem_singleton] at hx
      subst hx
      cases hlast : ws.getLast? with
      | none => simp [hlast]
      | some lw =>
        simp only [hlast]
        by_cases hlt : a.startTime < lw.«end»
        · rw [if_pos hlt]; exact le_of_lt hlt
        · rw [if_neg hlt]; linarith
    | cons b t2 =>
      intro hch x hx
      simp only [List.map_cons, List.chain'_cons] at hch
      rcases List.mem_cons.mp hx with rfl | htail
      · exact hch.1
      · exact ih (by simpa using hch.2) x htail

/-! ### Arithmetic of the timestamp formatters -/

theorem floor_cast_natFloor {a : ℚ} (h : 0 ≤ a) : ⌊a⌋ = ((⌊a⌋₊ : ℕ) : ℤ) := by
  have h1 := Int.floor_toNat a
  have h0 : (0 : ℤ) ≤ ⌊a⌋ := Int.floor_nonneg.mpr h
  omega

theorem intToStr_natCast (m : ℕ) : intToStr ((m : ℕ) : ℤ) = natDigits m := by
  rw [intToStr, if_neg (Int.not_lt.mpr (Int.natCast_nonneg m))]
  simp

theorem truncQ_of_nonneg {x : ℚ} (h : 0 ≤ x) : truncQ x = ⌊x⌋ := if_pos h

theorem floor_jsRem_sixty (s : ℚ) (hs : 0 ≤ s) :
    ⌊jsRem s 60⌋ = ((⌊s⌋₊ % 60 : ℕ) : ℤ) := by
  have hdiv : (0 : ℚ) ≤ s / 60 := by positivity
  have h1 : jsRem s 60 = s - ((60 * ⌊s / 60⌋ : ℤ) : ℚ) := by
    rw [jsRem, truncQ_of_nonneg hdiv]
    push_cast
    ring
  rw [h1, Int.floor_sub_int, floor_cast_natFloor hs]
  have hq : ⌊s / 60⌋ = ((⌊s⌋₊ / 60 : ℕ) : ℤ) := by
    rw [floor_cast_natFloor hdiv, Nat.floor_div_ofNat]
  rw [hq]
  have h3 := Nat.div_add_mod ⌊s⌋₊ 60
  omega

theorem floor_jsRem_one_mul (s : ℚ) (hs : 0 ≤ s) (m : ℕ) (hm : 0 < m) :
    ⌊jsRem s 1 * (m : ℕ)⌋ = ((⌊s * (m : ℕ)⌋₊ % m : ℕ) : ℤ) := by
  have h1 : jsRem s 1 * ((m : ℕ) : ℚ) = s * (m : ℕ) - (((m : ℕ) * ⌊s⌋ : ℤ) : ℚ) := by
    rw [jsRem, truncQ_of_nonneg (by simpa using hs), div_one]
    push_cast
    ring
  rw [h1, Int.floor_sub_int]
  have hT : ⌊s * (m : ℕ)⌋ = ((⌊s * (m : ℕ)⌋₊ : ℕ) : ℤ) := floor_cast_natFloor (by positivity)
  have hF : ⌊s⌋ = ((⌊s⌋₊ : ℕ) : ℤ) := floor_cast_natFloor hs
  have hdivq : s * (m : ℕ) / (m : ℕ) = s := by
    field_simp
  have hfd : ⌊s⌋₊ = ⌊s * (m : ℕ)⌋₊ / m := by
    conv_lhs => rw [← hdivq]
    exact Nat.floor_div_nat (s * (m : ℕ)) m
  rw [hT, hF, hfd]
  have h3 := Nat.div_add_mod ⌊s * (m : ℕ)⌋₊ m
  have h3z : ((m : ℤ)) * ((⌊s * (m : ℕ)⌋₊ / m : ℕ) : ℤ) + ((⌊s * (m : ℕ)⌋₊ % m : ℕ) : ℤ) =
      ((⌊s * (m : ℕ)⌋₊ : ℕ) : ℤ) := by
    exact_mod_cast h3
  linarith

theorem floor_jsRem_hours_div (s : ℚ) (hs : 0 ≤ s) :
    ⌊jsRem s 3600 / 60⌋ = ((⌊s / 60⌋₊ % 60 : ℕ) : ℤ) := by
  have h1 : jsRem s 3600 / 60 = s / 60 - ((60 * ⌊s / 3600⌋ : ℤ) : ℚ) := by
    rw [jsRem, truncQ_of_nonneg (by positivity)]
    push_cast
    ring
  rw [h1, Int.floor_sub_int]
  have hM : ⌊s / 60⌋ = ((⌊s / 60⌋₊ : ℕ) : ℤ) := floor_cast_natFloor (by positivity)
  have hq : ⌊s / 3600⌋ = ((⌊s / 60⌋₊ / 60 : ℕ) : ℤ) := by
    have h2 : s / 3600 = s / 60 / 60 := by ring
    rw [h2, floor_cast_natFloor (by positivity), Nat.floor_div_ofNat]
  rw [hM, hq]
  have h3 := Nat.div_add_mod ⌊s / 60⌋₊ 60
  omega

/-- The LRC timestamp of a nonnegative time is exactly the specified
`[mm:ss.xx]` rendering. -/
theorem formatLrcTime_eq_spec {s : ℚ} (hs : 0 ≤ s) : formatLrcTime s = lrcTimeSpec s := by
  have h1 : intToStr ⌊s / 60⌋ = natDigits ⌊s / 60⌋₊ := by
    rw [floor_cast_natFloor (by positivity)]
    exact intToStr_natCast _
  have h2 : intToStr ⌊jsRem s 60⌋ = natDigits (⌊s⌋₊ % 60) := by
    rw [floor_jsRem_sixty s hs]
    exact intToStr_natCast _
  have h3 : intToStr ⌊jsRem s 1 * 100⌋ = natDigits (⌊s * 100⌋₊ % 100) := by
    have := floor_jsRem_one_mul s hs 100 (by norm_num)
    norm_num at this
    rw [this]
    exact intToStr_natCast _
  simp only [formatLrcTime, lrcTimeSpec, h1, h2, h3]

/-- The SRT timestamp of a nonnegative time is exactly the specified
`HH:MM:SS,mmm` rendering. -/
theorem formatSrtTime_eq_spec {s : ℚ} (hs : 0 ≤ s) : formatSrtTime s = srtTimeSpec s := by
  have h1 : intToStr ⌊s / 3600⌋ = natDigits ⌊s / 3600⌋₊ := by
    rw [floor_cast_natFloor (by positivity)]
    exact intToStr_natCast _
  have h2 : intToStr ⌊jsRem s 3600 / 60⌋ = natDigits (⌊s / 60⌋₊ % 60) := by
    rw [floor_jsRem_hours_div s hs]
    exact intToStr_natCast _
  have h3 : intToStr ⌊jsRem s 60⌋ = natDigits (⌊s⌋₊ % 60) := by
    rw [floor_jsRem_sixty s hs]
    exact intToStr_natCast _
  have h4 : intToStr ⌊jsRem s 1 * 1000⌋ = natDigits (⌊s * 1000⌋₊ % 1000) := by
    have := floor_jsRem_one_mul s hs 1000 (by norm_num)
    norm_num at this
    rw [this]
    exact intToStr_natCast _
  simp only [formatSrtTime, srtTimeSpec, h1, h2, h3, h4]

/-! ### Concrete evaluations used by the claims -/

theorem ex_zzz :
    alignLyrics "Zzz unmatched word".data
      [⟨"completely".data, 0, 1⟩, ⟨"unmatched".data, 1, 2⟩, ⟨"word".data, 2, 3⟩] =
    [⟨"Zzz unmatched word".data, 1, 3, []⟩] := by
  have h1 : alignLoop
      [⟨"completely".data, 0, 1⟩, ⟨"unmatched".data, 1, 2⟩, ⟨"word".data, 2, 3⟩]
      (prepLines "Zzz unmatched word".data) 0 = [("Zzz unmatched word".data, 1)] := by
    decide
  unfold alignLyrics
  rw [h1]
  norm_num [mkLine, setEndTimes, List.getD, List.getLast?]

theorem ex_solo :
    alignLyrics "Solo".data [⟨"Solo".data, 2, 1⟩] = [⟨"Solo".data, 2, 7, []⟩] := by
  have h1 : alignLoop [⟨"Solo".data, 2, 1⟩] (prepLines "Solo".data) 0 =
      [("Solo".data, 0)] := by decide
  unfold alignLyrics
  rw [h1]
  norm_num [mkLine, setEndTimes, List.getD, List.getLast?]

theorem ex_chorus :
    alignLyrics "[Chorus]\nHello world".data
      [⟨"Hello".data, 0, 1/2⟩, ⟨"world".data, 1/2, 1⟩] =
    [⟨"Hello world".data, 0, 1, []⟩] := by
  have h1 : alignLoop [⟨"Hello".data, 0, 1/2⟩, ⟨"world".data, 1/2, 1⟩]
      (prepLines "[Chorus]\nHello world".data) 0 = [("Hello world".data, 0)] := by decide
  unfold alignLyrics
  rw [h1]
  norm_num [mkLine, setEndTimes, List.getD, List.getLast?]

theorem ex_lrc : formatLrcTime (65.256 : ℚ) = "[01:05.25]".data := by
  rw [formatLrcTime_eq_spec (by norm_num)]
  have h1 : ⌊(65.256 : ℚ) / 60⌋₊ = 1 := by rw [← Int.floor_toNat]; norm_num
  have h2 : ⌊(65.256 : ℚ)⌋₊ = 65 := by rw [← Int.floor_toNat]; norm_num; omega
  have h3 : ⌊(65.256 : ℚ) * 100⌋₊ = 6525 := by rw [← Int.floor_toNat]; norm_num; omega
  rw [lrcTimeSpec, h1, h2, h3]
  decide

theorem ex_srt : formatSrtTime (3661.0005 : ℚ) = "01:01:01,000".data := by
  rw [formatSrtTime_eq_spec (by norm_num)]
  have h1 : ⌊(3661.0005 : ℚ) / 3600⌋₊ = 1 := by rw [← Int.floor_toNat]; norm_num
  have h2 : ⌊(3661.0005 : ℚ) / 60⌋₊ = 61 := by rw [← Int.floor_toNat]; norm_num; omega
  have h3 : ⌊(3661.0005 : ℚ)⌋₊ = 3661 := by rw [← Int.floor_toNat]; norm_num; omega
  have h4 : ⌊(3661.0005 : ℚ) * 1000⌋₊ = 3661000 := by
    rw [← Int.floor_toNat]; norm_num; omega
  rw [srtTimeSpec, h1, h2, h3, h4]
  decide

/-! ### Claim theorems -/

/-- C1: in the primary search, for a line with at least one normalized
token, the anchor is the first word at index `w ≥ cursor` whose normalized
text equals the line's first normalized token; that `w` is accepted
regardless of the two-word confirmation (the primary scan coincides with
the plain first-token scan `fallbackFrom`, which never consults the second
token, so the scan neither continues past nor rejects a first-token match
whether the second word matches, mismatches, or does not exist). -/
theorem primary_accepts_first_token_match (words : List SunoWord) (toks : List Str)
    (c j : Nat) (htoks : toks ≠ []) :
    primaryFrom words toks c = fallbackFrom words (toks.getD 0 []) c ∧
      (primaryFrom words toks c = some j ↔
        (c ≤ j ∧ ∃ x, words[j]? = some x ∧ normalize x.word = toks.getD 0 [] ∧
          ∀ k y, c ≤ k → k < j → words[k]? = some y →
            normalize y.word ≠ toks.getD 0 [])) := by
  refine ⟨primaryFrom_eq_fallbackFrom words toks c, ?_⟩
  rw [primaryFrom_eq_fallbackFrom]
  exact fallbackFrom_some_iff words (toks.getD 0 []) c j

theorem primary_accepts_first_token_match_witness :
    (["zzz".data, "unmatched".data, "word".data] ≠ ([] : List Str)) ∧
      (primaryFrom [⟨"completely".data, 0, 1⟩, ⟨"unmatched".data, 1, 2⟩]
          ["zzz".data, "unmatched".data, "word".data] 0 = fallbackFrom
          [⟨"completely".data, 0, 1⟩, ⟨"unmatched".data, 1, 2⟩] "zzz".data 0 ∧
        (primaryFrom [⟨"completely".data, 0, 1⟩, ⟨"unmatched".data, 1, 2⟩]
            ["zzz".data, "unmatched".data, "word".data] 0 = some 0 ↔
          (0 ≤ 0 ∧ ∃ x, [⟨"completely".data, 0, 1⟩,
              (⟨"unmatched".data, 1, 2⟩ : SunoWord)][(0 : Nat)]? = some x ∧
            normalize x.word = (["zzz".data, "unmatched".data, "word".data]).getD 0 [] ∧
            ∀ k y, 0 ≤ k → k < 0 →
              [⟨"completely".data, 0, 1⟩,
                (⟨"unmatched".data, 1, 2⟩ : SunoWord)][k]? = some y →
              normalize y.word ≠ (["zzz".data, "unmatched".data, "word".data]).getD 0 []))) :=
  ⟨by decide,
    primary_accepts_first_token_match
      [⟨"completely".data, 0, 1⟩, ⟨"unmatched".data, 1, 2⟩]
      ["zzz".data, "unmatched".data, "word".data] 0 0 (by decide)⟩

/-- C2: the fallback search runs exactly when the primary search found no
match and the line has more than one token; it re-scans from the same
cursor and anchors on the first word matching the line's second normalized
token.  Concretely, for `"Zzz unmatched word"` against words
`completely/unmatched/word`, the single output line starts at time 1. -/
theorem fallback_second_token_anchor (words : List SunoWord) (toks : List Str) (c : Nat) :
    (∀ j, primaryFrom words toks c = some j → matchLine words toks c = some j) ∧
      (primaryFrom words toks c = none → toks.length ≤ 1 → matchLine words toks c = none) ∧
      (primaryFrom words toks c = none → toks.length > 1 →
        ∀ j, matchLine words toks c = some j ↔
          (c ≤ j ∧ ∃ x, words[j]? = some x ∧ normalize x.word = toks.getD 1 [] ∧
            ∀ k y, c ≤ k → k < j → words[k]? = some y →
              normalize y.word ≠ toks.getD 1 [])) ∧
      alignLyrics "Zzz unmatched word".data
          [⟨"completely".data, 0, 1⟩, ⟨"unmatched".data, 1, 2⟩, ⟨"word".data, 2, 3⟩] =
        [⟨"Zzz unmatched word".data, 1, 3, []⟩] := by
  refine ⟨?_, ?_, ?_, ex_zzz⟩
  · intro j hp
    unfold matchLine
    rw [hp]
  · intro hp hlen
    unfold matchLine
    rw [hp, if_neg (by omega)]
  · intro hp hlen j
    unfold matchLine
    rw [hp, if_pos hlen]
    exact fallbackFrom_some_iff words (toks.getD 1 []) c j

theorem fallback_second_token_anchor_witness :
    (primaryFrom [⟨"completely".data, 0, 1⟩, ⟨"unmatched".data, 1, 2⟩, ⟨"word".data, 2, 3⟩]
        (lineTokensOf "Zzz unmatched word".data) 0 = none) ∧
      ((lineTokensOf "Zzz unmatched word".data).length > 1) ∧
      (matchLine [⟨"completely".data, 0, 1⟩, ⟨"unmatched".data, 1, 2⟩, ⟨"word".data, 2, 3⟩]
          (lineTokensOf "Zzz unmatched word".data) 0 = some 1 ↔
        (0 ≤ 1 ∧ ∃ x, [⟨"completely".data, 0, 1⟩, ⟨"unmatched".data, 1, 2⟩,
            (⟨"word".data, 2, 3⟩ : SunoWord)][(1 : Nat)]? = some x ∧
          normalize x.word = (lineTokensOf "Zzz unmatched word".data).getD 1 [] ∧
          ∀ k y, 0 ≤ k → k < 1 →
            [⟨"completely".data, 0, 1⟩, ⟨"unmatched".data, 1, 2⟩,
              (⟨"word".data, 2, 3⟩ : SunoWord)][k]? = some y →
            normalize y.word ≠ (lineTokensOf "Zzz unmatched word".data).getD 1 [])) :=
  ⟨by decide, by decide,
    (fallback_second_token_anchor
        [⟨"completely".data, 0, 1⟩, ⟨"unmatched".data, 1, 2⟩, ⟨"word".data, 2, 3⟩]
        (lineTokensOf "Zzz unmatched word".data) 0).2.2.1 (by decide) (by decide) 1⟩

theorem matchLine_nil_words (toks : List Str) (c : Nat) :
    matchLine [] toks c = none := by
  unfold matchLine primaryFrom fallbackFrom
  simp only [List.drop_nil, primaryAux, fallbackAux]
  split <;> rfl

theorem alignLoop_nil_words : ∀ (ls : List Str) (c : Nat), alignLoop [] ls c = [] := by
  intro ls
  induction ls with
  | nil => intro c; rfl
  | cons line rest ih =>
    intro c
    rw [alignLoop]
    by_cases hs : isSection line
    · rw [if_pos hs]; exact ih c
    · rw [if_neg hs]
      by_cases ht : (lineTokensOf line).length = 0
      · rw [if_pos ht]; exact ih c
      · rw [if_neg ht, matchLine_nil_words]
        exact ih c

/-- C9: `alignLyrics` is a total function (it is defined for all inputs and
always returns a list); an empty word list yields the empty output for any
prompt, and every anchor index produced by the matching loop is within the
bounds of the word list — the word-array accesses of the source are
guarded. -/
theorem alignLyrics_total (promptText : Str) (words : List SunoWord) :
    alignLyrics promptText [] = [] ∧
      (∀ pr ∈ alignLoop words (prepLines promptText) 0, pr.2 < words.length) ∧
      (alignLyrics promptText words).length =
        (alignLoop words (prepLines promptText) 0).length := by
  refine ⟨?_, ?_, ?_⟩
  · unfold alignLyrics
    rw [alignLoop_nil_words]
    rfl
  · intro pr hpr
    exact (alignLoop_mem_bounds words (prepLines promptText) 0 pr hpr).2
  · unfold alignLyrics
    rw [setEndTimes_length, List.length_map]

theorem alignLyrics_total_witness :
    alignLyrics "Solo".data [] = [] ∧
      ((("Zzz unmatched word".data, 1) : Str × Nat).2 <
        ([⟨"completely".data, 0, 1⟩, ⟨"unmatched".data, 1, 2⟩,
          (⟨"word".data, 2, 3⟩ : SunoWord)] : List SunoWord).length) :=
  ⟨(alignLyrics_total "Solo".data []).1,
    (alignLyrics_total "Zzz unmatched word".data
        [⟨"completely".data, 0, 1⟩, ⟨"unmatched".data, 1, 2⟩, ⟨"word".data, 2, 3⟩]).2.1
      ("Zzz unmatched word".data, 1) (by decide)⟩

/-- C3: after post-processing, every line but the last ends where the next
line starts, and the last line ends at the last word's end time when that
is strictly past the line's start, else at `startTime + 5`; in particular
the malformed `"Solo"` input gets endTime `7`. -/
theorem endTime_postprocessing (promptText : Str) (words : List SunoWord) :
    (∀ (i : Nat) (x y : AlignedLine),
        (alignLyrics promptText words)[i]? = some x →
        (alignLyrics promptText words)[i + 1]? = some y → x.endTime = y.startTime) ∧
      (∀ z : AlignedLine, (alignLyrics promptText words).getLast? = some z →
        z.endTime =
          match words.getLast? with
          | some lw => if z.startTime < lw.«end» then lw.«end» else z.startTime + 5
          | none => z.startTime + 5) ∧
      alignLyrics "Solo".data [⟨"Solo".data, 2, 1⟩] = [⟨"Solo".data, 2, 7, []⟩] := by
  refine ⟨?_, ?_, ex_solo⟩
  · intro i x y hx hy
    exact setEndTimes_adjacent words _ i x y hx hy
  · intro z hz
    exact setEndTimes_getLast words _ z hz

theorem endTime_postprocessing_witness :
    (alignLyrics "Solo".data [⟨"Solo".data, 2, 1⟩]).getLast? =
        some ⟨"Solo".data, 2, 7, []⟩ ∧
      ((⟨"Solo".data, 2, 7, []⟩ : AlignedLine).endTime =
        match ([⟨"Solo".data, 2, 1⟩] : List SunoWord).getLast? with
        | some lw =>
            if (⟨"Solo".data, 2, 7, []⟩ : AlignedLine).startTime < lw.«end» then lw.«end»
            else (⟨"Solo".data, 2, 7, []⟩ : AlignedLine).startTime + 5
        | none => (⟨"Solo".data, 2, 7, []⟩ : AlignedLine).startTime + 5) :=
  ⟨by rw [ex_solo]; rfl,
    (endTime_postprocessing "Solo".data [⟨"Solo".data, 2, 1⟩]).2.1
      ⟨"Solo".data, 2, 7, []⟩ (by rw [ex_solo]; rfl)⟩

theorem alignLoop_all_sections (words : List SunoWord) :
    ∀ (ls : List Str) (c : Nat), (∀ l ∈ ls, isSection l = true) →
      alignLoop words ls c = [] := by
  intro ls
  induction ls with
  | nil => intro c _; rfl
  | cons line rest ih =>
    intro c h
    rw [alignLoop, if_pos (h line (List.mem_cons_self line rest))]
    exact ih c fun l hl => h l (List.mem_cons_of_mem line hl)

/-- C5: bracketed section lines, and lines whose tokens normalize to
nothing, produce no output line and leave the cursor unchanged; blank lines
are removed before matching, so text with only blank or bracketed lines
yields the empty result; and `"[Chorus]\nHello world"` yields exactly the
one line `"Hello world"` starting at time 0. -/
theorem skip_lines_no_output_no_cursor (words : List SunoWord) :
    (∀ (rest : List Str) (c : Nat) (line : Str), isSection line = true →
        alignLoop words (line :: rest) c = alignLoop words rest c) ∧
      (∀ (rest : List Str) (c : Nat) (line : Str), lineTokensOf line = [] →
        alignLoop words (line :: rest) c = alignLoop words rest c) ∧
      (∀ promptText : Str,
        (∀ l ∈ (splitOnChar '\n' promptText).map trimWs, l = [] ∨ isSection l = true) →
        alignLyrics promptText words = []) ∧
      alignLyrics "[Chorus]\nHello world".data
          [⟨"Hello".data, 0, 1/2⟩, ⟨"world".data, 1/2, 1⟩] =
        [⟨"Hello world".data, 0, 1, []⟩] := by
  refine ⟨?_, ?_, ?_, ex_chorus⟩
  · intro rest c line hs
    rw [alignLoop, if_pos hs]
  · intro rest c line ht
    by_cases hs : isSection line
    · rw [alignLoop, if_pos hs]
    · rw [alignLoop, if_neg hs]
      simp [ht]
  · intro promptText hall
    have hsec : ∀ l ∈ prepLines promptText, isSection l = true := by
      intro l hl
      rcases List.mem_filter.mp hl with ⟨hmem, hlen⟩
      rcases hall l hmem with h0 | h1
      · subst h0
        simp at hlen
      · exact h1
    unfold alignLyrics
    rw [alignLoop_all_sections words _ 0 hsec]
    rfl

theorem skip_lines_no_output_no_cursor_witness :
    isSection "[Verse]".data = true ∧
      alignLoop [⟨"la".data, 0, 1⟩] ["[Verse]".data, "la".data] 0 =
        alignLoop [⟨"la".data, 0, 1⟩] ["la".data] 0 :=
  ⟨by decide,
    (skip_lines_no_output_no_cursor [⟨"la".data, 0, 1⟩]).1 ["la".data] 0
      "[Verse]".data (by decide)⟩

theorem getD_of_lt {α : Type*} (l : List α) (d : α) {i : Nat} (h : i < l.length) :
    l.getD i d = l[i] := by
  rw [List.getD_eq_getElem?_getD, List.getElem?_eq_getElem h]
  rfl

theorem chain_le_map_start (words : List SunoWord)
    (hsort : List.Chain' (· ≤ ·) (words.map SunoWord.start)) :
    ∀ idx : List Nat, List.Pairwise (· < ·) idx → (∀ i ∈ idx, i < words.length) →
      List.Chain' (· ≤ ·) (idx.map fun i => (words.getD i default).start) := by
  have hpair : List.Pairwise (· ≤ ·) (words.map SunoWord.start) :=
    List.chain'_iff_pairwise.mp hsort
  intro idx
  induction idx with
  | nil => intro _ _; simp
  | cons a t ih =>
    intro hp hb
    rcases List.pairwise_cons.mp hp with ⟨ha, hp2⟩
    have iht := ih hp2 fun i hi => hb i (List.mem_cons_of_mem a hi)
    cases t with
    | nil => simp
    | cons b t2 =>
      rw [List.map_cons, List.map_cons, List.chain'_cons]
      rw [List.map_cons] at iht
      refine ⟨?_, iht⟩
      have hab : a < b := ha b (List.mem_cons_self b t2)
      have ha1 : a < words.length := hb a (List.mem_cons_self a (b :: t2))
      have hb1 : b < words.length :=
        hb b (List.mem_cons_of_mem a (List.mem_cons_self b t2))
      have hget := List.pairwise_iff_getElem.mp hpair a b (by simpa using ha1)
        (by simpa using hb1) hab
      rw [List.getElem_map, List.getElem_map] at hget
      rw [getD_of_lt words default ha1, getD_of_lt words default hb1]
      exact hget

/-- C4: when the word list is in time order (non-decreasing start times),
every output line satisfies `startTime ≤ endTime` after post-processing. -/
theorem start_le_end_of_time_ordered (promptText : Str) (words : List SunoWord)
    (hsort : List.Chain' (· ≤ ·) (words.map SunoWord.start)) :
    ∀ x ∈ alignLyrics promptText words, x.startTime ≤ x.endTime := by
  intro x hx
  unfold alignLyrics at hx
  refine setEndTimes_start_le_end words _ ?_ x hx
  rw [List.map_map]
  have h1 : (AlignedLine.startTime ∘ mkLine words) =
      fun pr : Str × Nat => (words.getD pr.2 default).start := rfl
  rw [h1]
  have h2 : (alignLoop words (prepLines promptText) 0).map
        (fun pr : Str × Nat => (words.getD pr.2 default).start) =
      ((alignLoop words (prepLines promptText) 0).map Prod.snd).map
        (fun i => (words.getD i default).start) := by
    rw [List.map_map]
    rfl
  rw [h2]
  apply chain_le_map_start words hsort
  · exact alignLoop_pairwise words _ 0
  · intro i hi
    rcases List.mem_map.mp hi with ⟨pr, hpr, rfl⟩
    exact (alignLoop_mem_bounds words _ 0 pr hpr).2

theorem start_le_end_of_time_ordered_witness :
    List.Chain' (· ≤ ·) (([⟨"Solo".data, 2, 1⟩] : List SunoWord).map SunoWord.start) ∧
      ∀ x ∈ alignLyrics "Solo".data [⟨"Solo".data, 2, 1⟩], x.startTime ≤ x.endTime :=
  ⟨by simp, start_le_end_of_time_ordered "Solo".data [⟨"Solo".data, 2, 1⟩] (by simp)⟩

/-- C10: every output line's start time is the start field of the word at
its anchor index, the anchor indices of successive lines strictly increase
(word list time-ordered or not), and hence the number of output lines never
exceeds the number of input words. -/
theorem anchor_indices_strict_mono (promptText : Str) (words : List SunoWord) :
    (alignLyrics promptText words).map AlignedLine.startTime =
        (alignLoop words (prepLines promptText) 0).map
          (fun pr => (words.getD pr.2 default).start) ∧
      List.Pairwise (· < ·) ((alignLoop words (prepLines promptText) 0).map Prod.snd) ∧
      (∀ pr ∈ alignLoop words (prepLines promptText) 0, pr.2 < words.length) ∧
      (alignLyrics promptText words).length ≤ words.length := by
  refine ⟨?_, alignLoop_pairwise words _ 0, ?_, ?_⟩
  · unfold alignLyrics
    rw [setEndTimes_map_startTime, List.map_map]
    rfl
  · intro pr hpr
    exact (alignLoop_mem_bounds words _ 0 pr hpr).2
  · unfold alignLyrics
    rw [setEndTimes_length, List.length_map]
    have h := pairwise_lt_bounded_length
      ((alignLoop words (prepLines promptText) 0).map Prod.snd) words.length 0
      (alignLoop_pairwise words _ 0)
      (fun x hx => by
        rcases List.mem_map.mp hx with ⟨pr, hpr, rfl⟩
        exact (alignLoop_mem_bounds words _ 0 pr hpr).2)
      (fun x _ => Nat.zero_le x)
    simpa using h

theorem anchor_indices_strict_mono_witness :
    ((("Hello world".data, 0) : Str × Nat).2 <
      ([⟨"Hello".data, 0, 1/2⟩, (⟨"world".data, 1/2, 1⟩ : SunoWord)] : List SunoWord).length) :=
  (anchor_indices_strict_mono "[Chorus]\nHello world".data
      [⟨"Hello".data, 0, 1/2⟩, ⟨"world".data, 1/2, 1⟩]).2.2.1
    ("Hello world".data, 0) (by decide)

/-- C7: `generateLRC` renders each line, in order, as `[mm:ss.xx]` (total
whole minutes, seconds within the minute, truncated hundredths, each
zero-padded to two digits) followed by the text, joined by single newlines
with no trailing newline; `65.256` renders as `[01:05.25]`. -/
theorem generateLRC_format :
    (∀ lines : List AlignedLine, (∀ l ∈ lines, 0 ≤ l.startTime) →
        generateLRC lines =
          List.intercalate ['\n'] (lines.map fun l => lrcTimeSpec l.startTime ++ l.text)) ∧
      formatLrcTime (65.256 : ℚ) = "[01:05.25]".data := by
  refine ⟨?_, ex_lrc⟩
  intro lines hnn
  unfold generateLRC
  congr 1
  apply List.map_congr_left
  intro l hl
  rw [formatLrcTime_eq_spec (hnn l hl)]

theorem generateLRC_format_witness :
    (∀ l ∈ ([⟨"Hi".data, 65.256, 70, []⟩] : List AlignedLine), 0 ≤ l.startTime) ∧
      generateLRC [⟨"Hi".data, 65.256, 70, []⟩] =
        List.intercalate ['\n'] (([⟨"Hi".data, 65.256, 70, []⟩] : List AlignedLine).map
          fun l => lrcTimeSpec l.startTime ++ l.text) :=
  ⟨by intro l hl; rw [List.mem_singleton] at hl; subst hl; norm_num,
    (generateLRC_format).1 [⟨"Hi".data, 65.256, 70, []⟩]
      (by intro l hl; rw [List.mem_singleton] at hl; subst hl; norm_num)⟩

/-- C8: `generateSRT` produces one block per line — 1-based index, then
`start --> end` in `HH:MM:SS,mmm` (hours unwrapped, milliseconds truncated),
then the text — blocks separated by a blank line; `3661.0005` renders as
`01:01:01,000`. -/
theorem generateSRT_format :
    (∀ lines : List AlignedLine,
        (lines.enum.map fun pr => srtBlock pr.1 pr.2).length = lines.length) ∧
      (∀ lines : List AlignedLine, (∀ l ∈ lines, 0 ≤ l.startTime ∧ 0 ≤ l.endTime) →
        generateSRT lines = List.intercalate ['\n'] (lines.enum.map fun pr =>
          natDigits (pr.1 + 1) ++ ['\n'] ++ srtTimeSpec pr.2.startTime ++ " --> ".data ++
            srtTimeSpec pr.2.endTime ++ ['\n'] ++ pr.2.text ++ ['\n'])) ∧
      formatSrtTime (3661.0005 : ℚ) = "01:01:01,000".data := by
  refine ⟨?_, ?_, ex_srt⟩
  · intro lines
    rw [List.length_map, List.enum_length]
  · intro lines hnn
    unfold generateSRT
    refine congrArg (List.intercalate ['\n']) (List.map_congr_left ?_)
    intro pr hpr
    have hmem : pr.2 ∈ lines := by
      have hm := List.mem_map_of_mem Prod.snd hpr
      rwa [List.enum_map_snd] at hm
    rcases hnn pr.2 hmem with ⟨h1, h2⟩
    unfold srtBlock
    rw [formatSrtTime_eq_spec h1, formatSrtTime_eq_spec h2]

theorem generateSRT_format_witness :
    (∀ l ∈ ([⟨"Hi".data, 3661.0005, 3662, []⟩] : List AlignedLine),
        0 ≤ l.startTime ∧ 0 ≤ l.endTime) ∧
      generateSRT [⟨"Hi".data, 3661.0005, 3662, []⟩] =
        List.intercalate ['\n']
          (([⟨"Hi".data, 3661.0005, 3662, []⟩] : List AlignedLine).enum.map fun pr =>
            natDigits (pr.1 + 1) ++ ['\n'] ++ srtTimeSpec pr.2.startTime ++ " --> ".data ++
              srtTimeSpec pr.2.endTime ++ ['\n'] ++ pr.2.text ++ ['\n']) :=
  ⟨by intro l hl; rw [List.mem_singleton] at hl; subst hl; constructor <;> norm_num,
    (generateSRT_format).2.1 [⟨"Hi".data, 3661.0005, 3662, []⟩]
      (by intro l hl; rw [List.mem_singleton] at hl; subst hl; constructor <;> norm_num)⟩

end Suno
